import Mathlib

/-!
Verification of the VulnerableCode core: the confidence-merge engine
(`PackageRelatedVulnerability.update_or_create` in `vulnerabilities/models.py`),
the package-identity assignment (`Package.set_package_url`), and the version-range
resolver exercised by `vulnerabilities/tests/test_istio.py`.

The Python code is shallowly embedded: Django model rows become Lean structures,
the table of `PackageRelatedVulnerability` rows becomes a `List PRV`, and the
methods become pure functions over those lists.
-/

namespace VulnCode

/-- Modelled from the spec: the constant `MAX_CONFIDENCE` is imported from
`vulnerabilities.improver`, which is not part of the repository slice; the spec
fixes it as "Confidence constant MAX_CONFIDENCE (default upper bound, value 100)". -/
def MAX_CONFIDENCE : Nat := 100

/-- One `PackageRelatedVulnerability` row: a foreign key to a `Package`, a foreign
key to a `Vulnerability` (both modelled as numeric row ids), and the payload
fields `created_by`, `confidence` (a `PositiveIntegerField`, hence `Nat`) and
`fix` (from `vulnerabilities/models.py`, class `PackageRelatedVulnerability`). -/
structure PRV where
  package : Nat
  vulnerability : Nat
  created_by : String
  confidence : Nat
  fix : Bool
deriving DecidableEq, Repr

/-- The (package, vulnerability) natural key of an edge, the subject of the
`unique_together = ("package", "vulnerability")` constraint. -/
def PRV.key (e : PRV) : Nat × Nat := (e.package, e.vulnerability)

/-- The filter used by `PackageRelatedVulnerability.objects.get(vulnerability=...,
package=...)`: does the row `e` carry the same key as the claim `self`? -/
def keyMatches (self e : PRV) : Bool :=
  e.package == self.package && e.vulnerability == self.vulnerability

/-- `existing.save()` after the three `setattr`-style assignments in
`update_or_create`: the first row matching `p` is replaced by `e'`; every other
row is untouched. -/
def replaceFirst (p : PRV → Bool) (e' : PRV) : List PRV → List PRV
  | [] => []
  | x :: xs => if p x then e' :: xs else x :: replaceFirst p e' xs

/-- `PackageRelatedVulnerability.update_or_create` (`vulnerabilities/models.py`
lines 230-261), acting on the table `store`:
`objects.get` on the (vulnerability, package) key; if a row exists and
`self.confidence > existing.confidence`, overwrite `created_by`, `confidence`,
`fix` on the existing row and save it; on `DoesNotExist`, create a new row from
all of `self`'s fields. -/
def update_or_create (store : List PRV) (self : PRV) : List PRV :=
  match store.find? (keyMatches self) with
  | some existing =>
    if self.confidence > existing.confidence then
      replaceFirst (keyMatches self)
        { existing with
            created_by := self.created_by
            confidence := self.confidence
            fix := self.fix } store
    else
      store
  | none =>
    store ++ [⟨self.package, self.vulnerability, self.created_by,
              self.confidence, self.fix⟩]

/-- Applying a whole sequence of claims to the table, oldest first. -/
def applySeq (store : List PRV) (claims : List PRV) : List PRV :=
  claims.foldl update_or_create store

/-- How many rows of the table carry the key `k`. -/
def countKey (store : List PRV) (k : Nat × Nat) : Nat :=
  (store.map PRV.key).countP (fun x => decide (x = k))

/-- The central invariant: at most one edge row per (package, vulnerability)
pair (`unique_together` in `PackageRelatedVulnerability.Meta`). -/
def oneEdgePerKey (store : List PRV) : Prop :=
  ∀ k : Nat × Nat, countKey store k ≤ 1

/-- The row `objects.create(...)` inserts: built from all of `self`'s fields. -/
def createdRow (self : PRV) : PRV :=
  ⟨self.package, self.vulnerability, self.created_by, self.confidence, self.fix⟩

/-- The row `existing.save()` persists: `existing` with `created_by`,
`confidence` and `fix` overwritten from `self`. -/
def updatedRow (existing self : PRV) : PRV :=
  { existing with
      created_by := self.created_by
      confidence := self.confidence
      fix := self.fix }

/-- The edge the table currently holds for the key `k`, if any. -/
def keyLookup (store : List PRV) (k : Nat × Nat) : Option PRV :=
  store.find? (fun e => e.package == k.1 && e.vulnerability == k.2)

/-- The per-key state machine of `update_or_create`, read off from the code:
absent → create the canonical edge; present → overwrite the payload iff the
new confidence is strictly greater. -/
def applyClaim (st : Option PRV) (c : PRV) : Option PRV :=
  match st with
  | none => some (createdRow c)
  | some e => if c.confidence > e.confidence then some (updatedRow e c) else some e

/-- The per-key step once an edge exists. -/
def stepRow (e c : PRV) : PRV :=
  if c.confidence > e.confidence then updatedRow e c else e

/-- The claim a sequence of claims ends up persisting: the first claim whose
confidence is never strictly exceeded later. -/
def bestClaim (b : PRV) (cs : List PRV) : PRV :=
  cs.foldl (fun b c => if c.confidence > b.confidence then c else b) b

/-- Maximum confidence of a list of claims, accumulated from `a`. -/
def maxConfFrom (a : Nat) (cs : List PRV) : Nat :=
  cs.foldl (fun m c => max m c.confidence) a

/-- Maximum confidence among a list of claims. -/
def maxConf (cs : List PRV) : Nat :=
  cs.foldl (fun m c => max m c.confidence) 0

/-- The edge row with key `k` and the payload fields of claim `c`. -/
def rowFor (k : Nat × Nat) (c : PRV) : PRV :=
  ⟨k.1, k.2, c.created_by, c.confidence, c.fix⟩

/-- A row created without supplying a confidence: the model of the Django field
default `confidence = models.PositiveIntegerField(default=MAX_CONFIDENCE, ...)`. -/
def defaultRow (package vulnerability : Nat) (created_by : String) (fix : Bool) : PRV :=
  ⟨package, vulnerability, created_by, MAX_CONFIDENCE, fix⟩

/-! ### Interleaved execution of `update_or_create` (concurrency)

`update_or_create` is two separate storage operations issued from application
code: a read (`objects.get`) and then a conditional write (`existing.save()` or
`objects.create(...)`) deciding on the values the read observed. The model
splits the method at that boundary so that two callers can interleave. -/

/-- Execution progress of one caller of `update_or_create`: not yet started;
`objects.get` done with observation `obs`; finished. -/
inductive MergePhase where
  | ready : MergePhase
  | readDone : Option PRV → MergePhase
  | finished : MergePhase
deriving DecidableEq, Repr

/-- One in-flight caller of `update_or_create`: its claim and its progress. -/
structure Improver where
  claim : PRV
  phase : MergePhase
deriving DecidableEq, Repr

/-- One scheduler step for one caller, against the edge currently stored for
the contested key. The read phase records the current edge; the write phase
replays the comparison and the save/create of `update_or_create`, but against
the earlier observation, exactly as the code does. -/
def stepImprover (store : Option PRV) (w : Improver) : Option PRV × Improver :=
  match w.phase with
  | .ready => (store, ⟨w.claim, .readDone store⟩)
  | .readDone obs =>
    match obs with
    | some existing =>
      (if w.claim.confidence > existing.confidence
        then some (updatedRow existing w.claim) else store,
       ⟨w.claim, .finished⟩)
    | none => (some (createdRow w.claim), ⟨w.claim, .finished⟩)
  | .finished => (store, w)

/-- Run two callers under a schedule: `false` steps the first caller, `true`
the second. -/
def runSchedule : Option PRV → Improver → Improver → List Bool → Option PRV
  | store, _, _, [] => store
  | store, w0, w1, false :: rest =>
    let s := stepImprover store w0
    runSchedule s.1 s.2 w1 rest
  | store, w0, w1, true :: rest =>
    let s := stepImprover store w1
    runSchedule s.1 w0 s.2 rest

/-! ### `Package.set_package_url` (advisory normalizer, field lengths)

`set_package_url` iterates over `package_url.to_dict().items()`; for each field
it evaluates the guard `value and len(value) > model_field.max_length` and
otherwise executes `setattr(self, field_name, value or None)`. Two failure
modes follow from the guard: `ValidationError('Value too long for field
"{field_name}".')` when the value is truthy and longer than a numeric
`max_length`, and — because `Package.qualifiers` is overridden as a `JSONField`
(models.py line 144) whose `max_length` is `None` while `to_dict()` yields a
dict there — a `TypeError` from `len(value) > None` for any truthy qualifiers
value. The Django model instance becomes an association list from field names
to field values. -/

/-- A value of `package_url.to_dict()`: the scalar purl fields carry an
optional string; the `qualifiers` field carries a string-keyed mapping. -/
inductive FieldValue where
  | str : Option String → FieldValue
  | mapping : List (String × String) → FieldValue
deriving DecidableEq, Repr

/-- One entry of `package_url.to_dict().items()` joined with the Django model
field it is stored into: the field name, the incoming value, and the model
field's `max_length` — `none` for the `qualifiers` `JSONField`, which declares
no maximum length. -/
structure FieldSpec where
  name : String
  value : FieldValue
  maxLength : Option Nat
deriving DecidableEq, Repr

/-- Python truthiness of a field value: `None`, `""` and `{}` are falsy. -/
def truthy : FieldValue → Bool
  | .str none => false
  | .str (some s) => !(s == "")
  | .mapping m => !m.isEmpty

/-- `len(value)` where it is evaluated (only behind the truthiness guard). -/
def valLen : FieldValue → Nat
  | .str none => 0
  | .str (some s) => s.length
  | .mapping m => m.length

/-- `value or None`: empty values are stored as `None`. -/
def valueOrNone : FieldValue → FieldValue
  | .str none => .str none
  | .str (some s) => if s == "" then .str none else .str (some s)
  | .mapping m => if m.isEmpty then .str none else .mapping m

/-- How `set_package_url` can fail: the `ValidationError` naming the too-long
field, or the `TypeError` Python 3 raises for `len(value) > None` when the
field declares no `max_length` and the value is truthy. -/
inductive PkgError where
  | fieldTooLong : String → PkgError
  | typeError : PkgError
deriving DecidableEq, Repr

/-- Does the guard `value and len(value) > model_field.max_length` raise on
this field (for either reason)? -/
def failsOn (f : FieldSpec) : Bool :=
  truthy f.value &&
    match f.maxLength with
    | none => true
    | some n => decide (valLen f.value > n)

/-- The exception the guard raises on a failing field: named `ValidationError`
for a bounded field, unnamed `TypeError` for an unbounded one. -/
def errOf (f : FieldSpec) : PkgError :=
  match f.maxLength with
  | none => .typeError
  | some _ => .fieldTooLong f.name

/-- The guard `value and len(value) > model_field.max_length`, evaluated as
Python does: short-circuit on a falsy value, `ValidationError` on a truthy
value longer than a numeric bound, `TypeError` on a truthy value with
`max_length = None`. -/
def checkField (f : FieldSpec) : Option PkgError :=
  if truthy f.value then
    match f.maxLength with
    | none => some .typeError
    | some n => if valLen f.value > n then some (.fieldTooLong f.name) else none
  else none

/-- The in-memory `Package` instance: field name ↦ current value. -/
abbrev PkgInstance := List (String × FieldValue)

/-- `setattr(self, field_name, v)`. -/
def setField : PkgInstance → String → FieldValue → PkgInstance
  | [], n, v => [(n, v)]
  | (m, w) :: rest, n, v =>
    if m == n then (m, v) :: rest else (m, w) :: setField rest n v

/-- `Package.set_package_url` (`vulnerabilities/models.py` lines 178-193): walk
the fields in order; evaluate the guard, stopping with its exception when it
raises (the exception propagates, keeping the mutations made so far),
otherwise assign `value or None` and continue. Returns the instance state and
the error, if any. -/
def set_package_url : PkgInstance → List FieldSpec → PkgInstance × Option PkgError
  | inst, [] => (inst, none)
  | inst, f :: rest =>
    match checkField f with
    | some err => (inst, some err)
    | none => set_package_url (setField inst f.name (valueOrNone f.value)) rest

/-- Assign a list of fields unconditionally (used to describe the state a
failed `set_package_url` leaves behind). -/
def applyFields (inst : PkgInstance) (fs : List FieldSpec) : PkgInstance :=
  fs.foldl (fun i f => setField i f.name (valueOrNone f.value)) inst

/-! ### Version-range resolver

The istio importer's `process_file` is not part of the repository slice; only
its test `TestIstioImporter.test_process_file` is. The resolver is therefore
modelled from the spec and checked against the expectations pinned by that
test. Versions are dotted numeric release versions, compared componentwise,
never as strings. -/

/-- Release-version order on dotted numeric versions (componentwise; when one
version is an initial segment of the other, the shorter comes first). -/
def verLe : List Nat → List Nat → Bool
  | [], _ => true
  | _ :: _, [] => false
  | a :: as, b :: bs => if a < b then true else if b < a then false else verLe as bs

/-- Strict release-version order. -/
def verLt (a b : List Nat) : Bool := !(verLe b a)

/-- Smallest version of a list under release-version order, if any. -/
def minVer : List (List Nat) → Option (List Nat)
  | [] => none
  | v :: vs =>
    match minVer vs with
    | none => some v
    | some m => some (if verLe v m then v else m)

/-- Modelled from the spec: `resolve(range_start, range_end, known_versions) ->
(vulnerable_versions, patched_version)` with `vulnerable_versions = every known
version v such that range_start <= v <= range_end` and `patched_version = the
smallest known version strictly greater than range_end`, absent when none
exists (the resolver itself lives in the istio importer, outside the
repository slice). -/
def resolve (s e : List Nat) (catalog : List (List Nat)) :
    List (List Nat) × Option (List Nat) :=
  (catalog.filter (fun v => verLe s v && verLe v e),
   minVer (catalog.filter (fun v => verLt e v)))

/-- One resolved `AffectedPackage` pair: the package-type view it was resolved
under, one vulnerable version, and the patched version when known. -/
structure AffectedPair where
  ptype : String
  vulnerable : List Nat
  patched : Option (List Nat)
deriving DecidableEq, Repr

/-- Modelled from the spec: the resolver, applied under one package-type view,
emits one (vulnerable, patched) pair per vulnerable catalog version, all
sharing the view's patched version (shape pinned by
`TestIstioImporter.test_process_file`). -/
def resolveView (ptype : String) (s e : List Nat)
    (catalog : List (List Nat)) : List AffectedPair :=
  (resolve s e catalog).1.map fun v => ⟨ptype, v, (resolve s e catalog).2⟩

/-- Modelled from the spec: one advisory range resolved independently under
each package-type view against that view's own catalog. -/
def resolveViews (views : List (String × List (List Nat)))
    (s e : List Nat) : List AffectedPair :=
  (views.map fun vw => resolveView vw.1 s e vw.2).flatten

/-- Modelled from the spec: all ranges of one advisory, grouped per view first
as in the istio test's expected output. -/
def resolveAllRanges (views : List (String × List (List Nat)))
    (ranges : List (List Nat × List Nat)) : List AffectedPair :=
  (views.map fun vw => (ranges.map fun r => resolveView vw.1 r.1 r.2 vw.2).flatten).flatten

/-- Package-version objects carried by one pair: the vulnerable package plus
the patched package when present. -/
def pairObjects (p : AffectedPair) : Nat :=
  1 + (if p.patched.isSome then 1 else 0)

/-- Package-version objects carried by a list of pairs. -/
def totalObjects (ps : List AffectedPair) : Nat :=
  (ps.map pairObjects).sum

/-- The version catalog of the istio test (`GitHubTagsAPI` fixture in
`vulnerabilities/tests/test_istio.py`). -/
def istioCatalog : List (List Nat) :=
  [[1, 0, 0], [1, 1, 0], [1, 1, 1], [1, 1, 17], [1, 2, 1],
   [1, 2, 7], [1, 3, 0], [1, 3, 1], [1, 3, 2], [1, 9, 1]]

/-- A table whose key column has no duplicates satisfies the invariant; this is
how the invariant is checked on concrete tables. -/
theorem oneEdgePerKey_of_nodup {store : List PRV}
    (h : (store.map PRV.key).Nodup) : oneEdgePerKey store := by
  intro k
  unfold countKey
  generalize store.map PRV.key = l at h ⊢
  induction l with
  | nil => simp
  | cons a l ih =>
    rcases List.nodup_cons.mp h with ⟨ha, hl⟩
    rw [List.countP_cons]
    by_cases hak : a = k
    · subst hak
      have : l.countP (fun x => decide (x = a)) = 0 :=
        List.countP_eq_zero.mpr (by
          intro x hx
          simp only [decide_eq_true_eq]
          rintro rfl
          exact ha hx)
      simp [this]
    · simpa [hak] using ih hl

/-! ### Basic lemmas about `find?`, `replaceFirst` and keys -/

theorem find?_eq_none_iff {p : PRV → Bool} {l : List PRV} :
    l.find? p = none ↔ ∀ x ∈ l, p x = false := by
  induction l with
  | nil => simp
  | cons a l ih =>
    by_cases ha : p a
    · simp [List.find?, ha]
    · simp only [List.find?, Bool.not_eq_true] at ha
      simp [List.find?, ha, ih]

theorem find?_eq_some_mem {p : PRV → Bool} {l : List PRV} {a : PRV}
    (h : l.find? p = some a) : a ∈ l ∧ p a = true := by
  induction l with
  | nil => simp at h
  | cons x l ih =>
    by_cases hx : p x
    · simp only [List.find?, hx, Option.some.injEq] at h
      subst h
      exact ⟨List.mem_cons_self _ _, hx⟩
    · simp only [List.find?, Bool.not_eq_true] at hx
      simp only [List.find?, hx] at h
      obtain ⟨hmem, hp⟩ := ih h
      exact ⟨List.mem_cons_of_mem _ hmem, hp⟩

theorem keyMatches_iff {self e : PRV} :
    keyMatches self e = true ↔ e.key = self.key := by
  simp [keyMatches, PRV.key, Prod.ext_iff, and_comm]

theorem replaceFirst_map_key {p : PRV → Bool} {e' : PRV} (l : List PRV)
    (h : ∀ x ∈ l, p x = true → x.key = e'.key) :
    (replaceFirst p e' l).map PRV.key = l.map PRV.key := by
  induction l with
  | nil => rfl
  | cons x xs ih =>
    by_cases hx : p x
    · have hk := h x (List.mem_cons_self _ _) hx
      simp [replaceFirst, hx, hk]
    · simp only [Bool.not_eq_true] at hx
      simp only [replaceFirst, hx, Bool.false_eq_true, if_false, List.map_cons,
        List.cons.injEq, true_and]
      exact ih fun y hy => h y (List.mem_cons_of_mem _ hy)

theorem mem_replaceFirst_of_not_p {p : PRV → Bool} {e' : PRV} {l : List PRV}
    {x : PRV} (hx : x ∈ l) (hpx : p x = false) : x ∈ replaceFirst p e' l := by
  induction l with
  | nil => simp at hx
  | cons y ys ih =>
    rcases List.mem_cons.mp hx with rfl | hmem
    · simp [replaceFirst, hpx]
    · by_cases hy : p y
      · simp [replaceFirst, hy, List.mem_cons_of_mem, hmem]
      · simp only [Bool.not_eq_true] at hy
        simp only [replaceFirst, hy, Bool.false_eq_true, if_false]
        exact List.mem_cons_of_mem _ (ih hmem)

theorem mem_replaceFirst {p : PRV → Bool} {e' : PRV} {l : List PRV} {x : PRV}
    (hx : x ∈ replaceFirst p e' l) : x ∈ l ∨ x = e' := by
  induction l with
  | nil => simp [replaceFirst] at hx
  | cons y ys ih =>
    by_cases hy : p y
    · simp only [replaceFirst, hy, if_true] at hx
      rcases List.mem_cons.mp hx with rfl | hmem
      · exact Or.inr rfl
      · exact Or.inl (List.mem_cons_of_mem _ hmem)
    · simp only [Bool.not_eq_true] at hy
      simp only [replaceFirst, hy, Bool.false_eq_true, if_false] at hx
      rcases List.mem_cons.mp hx with rfl | hmem
      · exact Or.inl (List.mem_cons_self _ _)
      · rcases ih hmem with h | h
        · exact Or.inl (List.mem_cons_of_mem _ h)
        · exact Or.inr h

/-- The keys of the table are unchanged by an update of an existing row. -/
theorem update_keys_of_found {store : List PRV} {self existing : PRV}
    (h : store.find? (keyMatches self) = some existing) :
    (update_or_create store self).map PRV.key = store.map PRV.key := by
  unfold update_or_create
  rw [h]
  by_cases hc : self.confidence > existing.confidence
  · simp only [hc, if_true]
    apply replaceFirst_map_key
    intro x _ hpx
    have hx := keyMatches_iff.mp hpx
    have hex := keyMatches_iff.mp (find?_eq_some_mem h).2
    simp only [PRV.key] at hx hex ⊢
    rw [hx, hex]
  · simp [hc]

theorem find?_append_of_none {p : PRV → Bool} {l l' : List PRV}
    (h : l.find? p = none) : (l ++ l').find? p = l'.find? p := by
  induction l with
  | nil => rfl
  | cons a l ih =>
    by_cases ha : p a
    · simp [List.find?, ha] at h
    · simp only [List.find?, Bool.not_eq_true] at ha
      simp only [List.find?, ha] at h
      simpa [List.find?, ha] using ih h

theorem countKey_append (store : List PRV) (e : PRV) (k : Nat × Nat) :
    countKey (store ++ [e]) k = countKey store k + (if e.key = k then 1 else 0) := by
  simp [countKey, List.countP_append, List.countP_cons]

theorem countKey_eq_zero_of_find?_none {store : List PRV} {self : PRV}
    (h : store.find? (keyMatches self) = none) : countKey store self.key = 0 := by
  unfold countKey
  apply List.countP_eq_zero.mpr
  intro k hk
  simp only [decide_eq_true_eq]
  obtain ⟨e, he, rfl⟩ := List.mem_map.mp hk
  intro hkey
  have := find?_eq_none_iff.mp h e he
  rw [keyMatches_iff.mpr hkey] at this
  exact Bool.true_eq_false.mp this

end VulnCode

namespace VulnCode

/-! ### Claim theorems about the merge engine -/

/-- C1: when no edge exists for the (package, vulnerability) key, applying a
claim appends the canonical edge built from the claim and that edge is what a
subsequent lookup of the key returns; when an edge `existing` exists, the
claim replaces `confidence`, `fix` and `created_by` iff its confidence is
strictly greater, and otherwise (ties included) the table is left completely
untouched. -/
theorem update_or_create_characterization (store : List PRV) (self : PRV) :
    (store.find? (keyMatches self) = none →
      update_or_create store self = store ++ [createdRow self] ∧
      (update_or_create store self).find? (keyMatches self) = some (createdRow self)) ∧
    (∀ existing, store.find? (keyMatches self) = some existing →
      (self.confidence > existing.confidence →
        update_or_create store self =
          replaceFirst (keyMatches self) (updatedRow existing self) store) ∧
      (¬ self.confidence > existing.confidence →
        update_or_create store self = store)) := by
  constructor
  · intro hnone
    have heq : update_or_create store self = store ++ [createdRow self] := by
      unfold update_or_create
      rw [hnone]
      rfl
    refine ⟨heq, ?_⟩
    rw [heq, find?_append_of_none hnone]
    have : keyMatches self (createdRow self) = true := by
      simp [keyMatches, createdRow]
    simp [List.find?, this]
  · intro existing hsome
    constructor
    · intro hgt
      unfold update_or_create
      rw [hsome]
      simp only [hgt, if_true]
      rfl
    · intro hle
      unfold update_or_create
      rw [hsome]
      simp [hle]

/-- Witness for `update_or_create_characterization` at a concrete table. -/
theorem update_or_create_characterization_witness :
    update_or_create [⟨1, 2, "a", 50, false⟩] ⟨3, 4, "b", 70, true⟩
        = [⟨1, 2, "a", 50, false⟩] ++ [createdRow ⟨3, 4, "b", 70, true⟩] ∧
      update_or_create [⟨1, 2, "a", 50, false⟩] ⟨1, 2, "b", 70, true⟩
        = replaceFirst (keyMatches ⟨1, 2, "b", 70, true⟩)
            (updatedRow ⟨1, 2, "a", 50, false⟩ ⟨1, 2, "b", 70, true⟩)
            [⟨1, 2, "a", 50, false⟩] ∧
      update_or_create [⟨1, 2, "a", 50, false⟩] ⟨1, 2, "b", 50, true⟩
        = [⟨1, 2, "a", 50, false⟩] :=
  ⟨((update_or_create_characterization [⟨1, 2, "a", 50, false⟩]
      ⟨3, 4, "b", 70, true⟩).1 (by decide)).1,
   ((update_or_create_characterization [⟨1, 2, "a", 50, false⟩]
      ⟨1, 2, "b", 70, true⟩).2 ⟨1, 2, "a", 50, false⟩ (by decide)).1 (by decide),
   ((update_or_create_characterization [⟨1, 2, "a", 50, false⟩]
      ⟨1, 2, "b", 50, true⟩).2 ⟨1, 2, "a", 50, false⟩ (by decide)).2 (by decide)⟩

/-- C3: the single-edge-per-pair invariant is preserved by every
`update_or_create`, and when the pair already has an edge the operation never
adds a row (the table's length is unchanged). -/
theorem update_or_create_one_edge_per_key (store : List PRV) (self : PRV)
    (hinv : oneEdgePerKey store) :
    oneEdgePerKey (update_or_create store self) ∧
    (∀ existing, store.find? (keyMatches self) = some existing →
      (update_or_create store self).length = store.length) := by
  constructor
  · intro k
    cases hfind : store.find? (keyMatches self) with
    | some existing =>
      have hkeys := update_keys_of_found hfind
      unfold countKey
      rw [hkeys]
      exact hinv k
    | none =>
      have heq : update_or_create store self = store ++ [createdRow self] := by
        unfold update_or_create
        rw [hfind]
        rfl
      rw [heq, countKey_append]
      by_cases hk : (createdRow self).key = k
      · have hself : (createdRow self).key = self.key := by
          simp [createdRow, PRV.key]
        rw [← hk, hself]
        have h0 := countKey_eq_zero_of_find?_none hfind
        simp [hk, hself] at h0 ⊢
        omega
      · simpa [hk] using hinv k
  · intro existing hfind
    have hkeys := update_keys_of_found hfind
    have := congrArg List.length hkeys
    simpa using this

/-- Witness for `update_or_create_one_edge_per_key`. -/
theorem update_or_create_one_edge_per_key_witness :
    oneEdgePerKey (update_or_create [⟨1, 2, "a", 50, false⟩] ⟨1, 2, "b", 70, true⟩) ∧
      (update_or_create [⟨1, 2, "a", 50, false⟩] ⟨1, 2, "b", 70, true⟩).length
        = [(⟨1, 2, "a", 50, false⟩ : PRV)].length :=
  ⟨(update_or_create_one_edge_per_key [⟨1, 2, "a", 50, false⟩] ⟨1, 2, "b", 70, true⟩
      (oneEdgePerKey_of_nodup (by decide))).1,
   (update_or_create_one_edge_per_key [⟨1, 2, "a", 50, false⟩] ⟨1, 2, "b", 70, true⟩
      (oneEdgePerKey_of_nodup (by decide))).2 ⟨1, 2, "a", 50, false⟩ (by decide)⟩

/-- C10: against an existing edge, `update_or_create` can change only
`confidence`, `fix` and `created_by`: the key column of the table is unchanged,
rows of other keys survive untouched, every row of the result is either an old
row or the updated row keeping `existing`'s package and vulnerability
references, and when the incoming confidence is not strictly greater the whole
table is unchanged. -/
theorem update_or_create_frame (store : List PRV) (self existing : PRV)
    (h : store.find? (keyMatches self) = some existing) :
    (update_or_create store self).map PRV.key = store.map PRV.key ∧
    (∀ e ∈ store, keyMatches self e = false → e ∈ update_or_create store self) ∧
    (∀ e ∈ update_or_create store self, e ∈ store ∨
      (e.package = existing.package ∧ e.vulnerability = existing.vulnerability ∧
       e.created_by = self.created_by ∧ e.confidence = self.confidence ∧
       e.fix = self.fix)) ∧
    (self.confidence ≤ existing.confidence → update_or_create store self = store) := by
  have hnotgt : self.confidence ≤ existing.confidence →
      update_or_create store self = store := by
    intro hle
    unfold update_or_create
    rw [h]
    simp [Nat.not_lt.mpr hle]
  refine ⟨update_keys_of_found h, ?_, ?_, hnotgt⟩
  · intro e he hkey
    unfold update_or_create
    rw [h]
    by_cases hgt : self.confidence > existing.confidence
    · simp only [hgt, if_true]
      exact mem_replaceFirst_of_not_p he hkey
    · simpa [hgt] using he
  · intro e he
    unfold update_or_create at he
    rw [h] at he
    by_cases hgt : self.confidence > existing.confidence
    · simp only [hgt, if_true] at he
      rcases mem_replaceFirst he with hmem | rfl
      · exact Or.inl hmem
      · exact Or.inr ⟨rfl, rfl, rfl, rfl, rfl⟩
    · simp only [hgt, if_false] at he
      exact Or.inl he

/-! ### The per-key dynamics of `update_or_create` -/

theorem update_of_none {store : List PRV} {c : PRV}
    (h : store.find? (keyMatches c) = none) :
    update_or_create store c = store ++ [createdRow c] := by
  unfold update_or_create
  rw [h]
  rfl

theorem update_of_gt {store : List PRV} {c ex : PRV}
    (h : store.find? (keyMatches c) = some ex)
    (hgt : c.confidence > ex.confidence) :
    update_or_create store c = replaceFirst (keyMatches c) (updatedRow ex c) store := by
  unfold update_or_create
  rw [h]
  show (if c.confidence > ex.confidence
      then replaceFirst (keyMatches c) (updatedRow ex c) store else store)
    = replaceFirst (keyMatches c) (updatedRow ex c) store
  rw [if_pos hgt]

theorem update_of_le {store : List PRV} {c ex : PRV}
    (h : store.find? (keyMatches c) = some ex)
    (hle : ¬ c.confidence > ex.confidence) :
    update_or_create store c = store := by
  unfold update_or_create
  rw [h]
  show (if c.confidence > ex.confidence
      then replaceFirst (keyMatches c) (updatedRow ex c) store else store) = store
  rw [if_neg hle]

theorem find?_replaceFirst_self {p : PRV → Bool} {e' : PRV} {l : List PRV}
    {a : PRV} (h : l.find? p = some a) (he' : p e' = true) :
    (replaceFirst p e' l).find? p = some e' := by
  induction l with
  | nil => simp at h
  | cons x xs ih =>
    by_cases hx : p x
    · simp only [replaceFirst, hx, if_true]
      rw [List.find?_cons_of_pos _ he']
    · simp only [Bool.not_eq_true] at hx
      simp only [replaceFirst, hx, Bool.false_eq_true, if_false]
      rw [List.find?_cons_of_neg _ (by simp [hx])]
      rw [List.find?_cons_of_neg _ (by simp [hx])] at h
      exact ih h

theorem keyLookup_eq_find? (s : List PRV) (c : PRV) :
    keyLookup s c.key = s.find? (keyMatches c) := rfl

theorem keyLookup_update_or_create (store : List PRV) (c : PRV) :
    keyLookup (update_or_create store c) c.key
      = applyClaim (keyLookup store c.key) c := by
  rw [keyLookup_eq_find?, keyLookup_eq_find?]
  cases hfind : store.find? (keyMatches c) with
  | none =>
    rw [update_of_none hfind, find?_append_of_none hfind]
    have hmatch : keyMatches c (createdRow c) = true := by
      simp [keyMatches, createdRow]
    rw [List.find?_cons_of_pos _ hmatch]
    rfl
  | some ex =>
    by_cases hgt : c.confidence > ex.confidence
    · rw [update_of_gt hfind hgt]
      have hme : keyMatches c (updatedRow ex c) = true :=
        (find?_eq_some_mem hfind).2
      rw [find?_replaceFirst_self hfind hme]
      simp [applyClaim, hgt]
    · rw [update_of_le hfind hgt, hfind]
      simp [applyClaim, hgt]

theorem keyLookup_applySeq (k : Nat × Nat) (cs : List PRV) : ∀ store : List PRV,
    (∀ c ∈ cs, c.key = k) →
    keyLookup (applySeq store cs) k = cs.foldl applyClaim (keyLookup store k) := by
  induction cs with
  | nil =>
    intro store _
    rfl
  | cons c cs ih =>
    intro store hkeys
    have hk : c.key = k := hkeys c (List.mem_cons_self _ _)
    show keyLookup (applySeq (update_or_create store c) cs) k = _
    rw [ih (update_or_create store c) fun x hx => hkeys x (List.mem_cons_of_mem _ hx)]
    show _ = cs.foldl applyClaim (applyClaim (keyLookup store k) c)
    congr 1
    rw [← hk]
    exact keyLookup_update_or_create store c

theorem foldl_applyClaim_some (cs : List PRV) : ∀ e : PRV,
    cs.foldl applyClaim (some e) = some (cs.foldl stepRow e) := by
  induction cs with
  | nil =>
    intro e
    rfl
  | cons c cs ih =>
    intro e
    show cs.foldl applyClaim (applyClaim (some e) c) = _
    have hstep : applyClaim (some e) c = some (stepRow e c) := by
      unfold applyClaim stepRow
      by_cases h : c.confidence > e.confidence <;> simp [h]
    rw [hstep]
    exact ih (stepRow e c)

theorem foldl_stepRow_rowFor (cs : List PRV) : ∀ (k : Nat × Nat) (b : PRV),
    cs.foldl stepRow (rowFor k b) = rowFor k (bestClaim b cs) := by
  induction cs with
  | nil =>
    intro k b
    rfl
  | cons c cs ih =>
    intro k b
    have hstep : stepRow (rowFor k b) c
        = rowFor k (if c.confidence > b.confidence then c else b) := by
      unfold stepRow rowFor updatedRow
      by_cases h : c.confidence > b.confidence <;> simp [h]
    show cs.foldl stepRow (stepRow (rowFor k b) c) = _
    rw [hstep, ih k (if c.confidence > b.confidence then c else b)]
    rfl

theorem le_maxConfFrom (cs : List PRV) : ∀ a : Nat, a ≤ maxConfFrom a cs := by
  induction cs with
  | nil =>
    intro a
    exact Nat.le_refl a
  | cons c cs ih =>
    intro a
    show a ≤ maxConfFrom (max a c.confidence) cs
    exact Nat.le_trans (Nat.le_max_left _ _) (ih (max a c.confidence))

theorem maxConf_cons (c : PRV) (cs : List PRV) :
    maxConf (c :: cs) = maxConfFrom c.confidence cs := by
  simp [maxConf, maxConfFrom, List.foldl_cons, Nat.zero_max]

theorem createdRow_eq_rowFor {c : PRV} {k : Nat × Nat} (h : c.key = k) :
    createdRow c = rowFor k c := by
  subst h
  rfl

theorem find?_max_eq_bestClaim (rest : List PRV) : ∀ c0 : PRV,
    (c0 :: rest).find? (fun c => c.confidence == maxConfFrom c0.confidence rest)
      = some (bestClaim c0 rest) := by
  induction rest with
  | nil =>
    intro c0
    simp [List.find?, bestClaim, maxConfFrom]
  | cons c rest ih =>
    intro c0
    by_cases hgt : c.confidence > c0.confidence
    · have hM : maxConfFrom c0.confidence (c :: rest)
          = maxConfFrom c.confidence rest := by
        show maxConfFrom (max c0.confidence c.confidence) rest = _
        rw [Nat.max_eq_right (Nat.le_of_lt hgt)]
      have hc0 : c0.confidence ≠ maxConfFrom c.confidence rest := by
        have := le_maxConfFrom rest c.confidence
        omega
      have hbest : bestClaim c0 (c :: rest) = bestClaim c rest := by
        unfold bestClaim
        rw [List.foldl_cons, if_pos hgt]
      rw [hM, hbest, List.find?_cons_of_neg _ (by simp [hc0])]
      exact ih c
    · have hM : maxConfFrom c0.confidence (c :: rest)
          = maxConfFrom c0.confidence rest := by
        show maxConfFrom (max c0.confidence c.confidence) rest = _
        rw [Nat.max_eq_left (Nat.not_lt.mp hgt)]
      have hbest : bestClaim c0 (c :: rest) = bestClaim c0 rest := by
        unfold bestClaim
        rw [List.foldl_cons, if_neg hgt]
      rw [hM, hbest]
      by_cases h0 : c0.confidence = maxConfFrom c0.confidence rest
      · rw [List.find?_cons_of_pos _ (by exact beq_iff_eq.mpr h0)]
        have hih := ih c0
        rw [List.find?_cons_of_pos _ (by exact beq_iff_eq.mpr h0)] at hih
        exact hih
      · have hlt : c0.confidence < maxConfFrom c0.confidence rest :=
          Nat.lt_of_le_of_ne (le_maxConfFrom rest c0.confidence) h0
        have hc : c.confidence ≠ maxConfFrom c0.confidence rest := by
          have := Nat.not_lt.mp hgt
          omega
        rw [List.find?_cons_of_neg _ (by simp [h0]),
          List.find?_cons_of_neg _ (by simp [hc])]
        have hih := ih c0
        rw [List.find?_cons_of_neg _ (by simp [h0])] at hih
        exact hih

/-- C2: for a sequence of claims all on the key `k`, applied to a table holding
no edge for `k`, the edge stored for `k` afterwards is exactly the first claim
of the sequence carrying the maximum confidence: its `fix` and `created_by` are
stored, and the stored confidence equals the maximum confidence among all the
claims. -/
theorem applySeq_confidence_monotonic (k : Nat × Nat) (store : List PRV)
    (cs : List PRV) (hkeys : ∀ c ∈ cs, c.key = k)
    (hempty : keyLookup store k = none) :
    keyLookup (applySeq store cs) k
        = (cs.find? (fun c => c.confidence == maxConf cs)).map (rowFor k) ∧
      ∀ e, keyLookup (applySeq store cs) k = some e → e.confidence = maxConf cs := by
  have h1 : keyLookup (applySeq store cs) k
      = (cs.find? (fun c => c.confidence == maxConf cs)).map (rowFor k) := by
    rw [keyLookup_applySeq k cs store hkeys, hempty]
    cases cs with
    | nil => rfl
    | cons c0 rest =>
      have hk0 : c0.key = k := hkeys c0 (List.mem_cons_self _ _)
      show rest.foldl applyClaim (applyClaim none c0) = _
      have hcr : applyClaim none c0 = some (createdRow c0) := rfl
      rw [hcr, foldl_applyClaim_some, createdRow_eq_rowFor hk0,
        foldl_stepRow_rowFor, maxConf_cons, find?_max_eq_bestClaim rest c0]
      rfl
  refine ⟨h1, ?_⟩
  intro e he
  rw [h1] at he
  obtain ⟨b, hb, hrow⟩ := Option.map_eq_some'.mp he
  have hconf : b.confidence = maxConf cs := by
    simpa using (find?_eq_some_mem hb).2
  rw [← hrow]
  simpa [rowFor] using hconf

/-- Witness for `applySeq_confidence_monotonic`: claims 60, 90, 90 on the key
(1, 2) leave the edge of the first 90-confidence claim. -/
theorem applySeq_confidence_monotonic_witness :
    keyLookup (applySeq []
        [⟨1, 2, "a", 60, false⟩, ⟨1, 2, "b", 90, true⟩, ⟨1, 2, "c", 90, false⟩]) (1, 2)
      = (([⟨1, 2, "a", 60, false⟩, ⟨1, 2, "b", 90, true⟩,
          ⟨1, 2, "c", 90, false⟩] : List PRV).find?
            (fun c => c.confidence == maxConf
              [⟨1, 2, "a", 60, false⟩, ⟨1, 2, "b", 90, true⟩,
               ⟨1, 2, "c", 90, false⟩])).map (rowFor (1, 2)) :=
  (applySeq_confidence_monotonic (1, 2) []
    [⟨1, 2, "a", 60, false⟩, ⟨1, 2, "b", 90, true⟩, ⟨1, 2, "c", 90, false⟩]
    (by decide) rfl).1

/-! ### Confidence bounds (C9) -/

/-- C9 counterexample: `update_or_create` performs no validation, so a claim
carrying confidence 150 is stored as-is, above `MAX_CONFIDENCE = 100`; the
`MinValueValidator`/`MaxValueValidator` on the field are only consulted by
Django's `full_clean`, which `update_or_create` never calls. -/
theorem stored_confidence_can_exceed_bound :
    update_or_create [] ⟨1, 2, "improver", 150, false⟩
        = [⟨1, 2, "improver", 150, false⟩] ∧
      MAX_CONFIDENCE < 150 :=
  ⟨rfl, by decide⟩

theorem update_or_create_confidence_le {B : Nat} {store : List PRV} {c : PRV}
    (hstore : ∀ e ∈ store, e.confidence ≤ B) (hc : c.confidence ≤ B) :
    ∀ e ∈ update_or_create store c, e.confidence ≤ B := by
  intro e he
  cases hfind : store.find? (keyMatches c) with
  | none =>
    rw [update_of_none hfind] at he
    rcases List.mem_append.mp he with h | h
    · exact hstore e h
    · have : e = createdRow c := by simpa using h
      subst this
      exact hc
  | some ex =>
    by_cases hgt : c.confidence > ex.confidence
    · rw [update_of_gt hfind hgt] at he
      rcases mem_replaceFirst he with h | h
      · exact hstore e h
      · subst h
        exact hc
    · rw [update_of_le hfind hgt] at he
      exact hstore e he

theorem applySeq_confidence_le {B : Nat} : ∀ (cs : List PRV) (store : List PRV),
    (∀ e ∈ store, e.confidence ≤ B) → (∀ c ∈ cs, c.confidence ≤ B) →
    ∀ e ∈ applySeq store cs, e.confidence ≤ B := by
  intro cs
  induction cs with
  | nil =>
    intro store hstore _
    exact hstore
  | cons c cs ih =>
    intro store hstore hcs
    exact ih (update_or_create store c)
      (update_or_create_confidence_le hstore (hcs c (List.mem_cons_self _ _)))
      fun x hx => hcs x (List.mem_cons_of_mem _ hx)

/-- C9 amended: every stored confidence stays within `0 ≤ confidence ≤
MAX_CONFIDENCE` provided every claim of the sequence carries a confidence
within the bound — `update_or_create` preserves the bound but does not enforce
it — and a row created without supplying a confidence defaults to
`MAX_CONFIDENCE = 100`. -/
theorem applySeq_confidence_bounded (store : List PRV) (cs : List PRV)
    (hstore : ∀ e ∈ store, e.confidence ≤ MAX_CONFIDENCE)
    (hcs : ∀ c ∈ cs, c.confidence ≤ MAX_CONFIDENCE) :
    (∀ e ∈ applySeq store cs, e.confidence ≤ MAX_CONFIDENCE) ∧
      (∀ (p v : Nat) (cb : String) (fx : Bool),
        (defaultRow p v cb fx).confidence = 100) :=
  ⟨applySeq_confidence_le cs store hstore hcs, fun _ _ _ _ => rfl⟩

/-- Witness for `applySeq_confidence_bounded`: the edge stored after claims of
confidence 60 and 90 is within the bound. -/
theorem applySeq_confidence_bounded_witness :
    (PRV.mk 1 2 "b" 90 true).confidence ≤ MAX_CONFIDENCE :=
  (applySeq_confidence_bounded [] [⟨1, 2, "a", 60, false⟩, ⟨1, 2, "b", 90, true⟩]
      (by intro e he; simp at he) (by decide)).1
    ⟨1, 2, "b", 90, true⟩ (by decide)

/-- Witness for `update_or_create_frame`. -/
theorem update_or_create_frame_witness :
    (update_or_create [⟨1, 2, "a", 50, false⟩, ⟨9, 9, "z", 10, true⟩]
        ⟨1, 2, "b", 70, true⟩).map PRV.key
      = [(⟨1, 2, "a", 50, false⟩ : PRV), ⟨9, 9, "z", 10, true⟩].map PRV.key ∧
    update_or_create [⟨1, 2, "a", 50, false⟩, ⟨9, 9, "z", 10, true⟩]
        ⟨1, 2, "b", 40, true⟩
      = [⟨1, 2, "a", 50, false⟩, ⟨9, 9, "z", 10, true⟩] :=
  ⟨(update_or_create_frame [⟨1, 2, "a", 50, false⟩, ⟨9, 9, "z", 10, true⟩]
      ⟨1, 2, "b", 70, true⟩ ⟨1, 2, "a", 50, false⟩ (by decide)).1,
   (update_or_create_frame [⟨1, 2, "a", 50, false⟩, ⟨9, 9, "z", 10, true⟩]
      ⟨1, 2, "b", 40, true⟩ ⟨1, 2, "a", 50, false⟩ (by decide)).2.2.2 (by decide)⟩

/-! ### Concurrency of `update_or_create` (C5) -/

/-- Two consecutive scheduler steps of one caller — a serialized execution —
implement exactly the per-key semantics of `update_or_create`. -/
theorem stepImprover_serialized (store : Option PRV) (c : PRV) :
    (stepImprover (stepImprover store ⟨c, .ready⟩).1
        (stepImprover store ⟨c, .ready⟩).2).1 = applyClaim store c := by
  cases store with
  | none => rfl
  | some e => rfl

/-- C5: the compare-then-write of `update_or_create` is an application-level
`objects.get` followed by a separate conditional save, and is NOT atomic.
Starting from an edge of confidence 50, claims 60 and 90 leave 90 under both
serialized orders, but the interleaving read(60-claim), read(90-claim),
write(90-claim), write(60-claim) loses the 90 update and leaves confidence 60:
a lost update, contradicting "always leaves confidence = 90 regardless of
arrival order". -/
theorem merge_race_lost_update :
    runSchedule (some ⟨1, 2, "importer", 50, false⟩)
        ⟨⟨1, 2, "low", 60, false⟩, .ready⟩ ⟨⟨1, 2, "high", 90, true⟩, .ready⟩
        [false, false, true, true]
      = some ⟨1, 2, "high", 90, true⟩ ∧
    runSchedule (some ⟨1, 2, "importer", 50, false⟩)
        ⟨⟨1, 2, "low", 60, false⟩, .ready⟩ ⟨⟨1, 2, "high", 90, true⟩, .ready⟩
        [true, true, false, false]
      = some ⟨1, 2, "high", 90, true⟩ ∧
    runSchedule (some ⟨1, 2, "importer", 50, false⟩)
        ⟨⟨1, 2, "low", 60, false⟩, .ready⟩ ⟨⟨1, 2, "high", 90, true⟩, .ready⟩
        [false, true, true, false]
      = some ⟨1, 2, "low", 60, false⟩ :=
  ⟨rfl, rfl, rfl⟩

/-! ### `Package.set_package_url` (C7, C8) -/

/-- The guard raises exactly on failing fields, with the exception `errOf`
determines. -/
theorem checkField_eq (f : FieldSpec) :
    checkField f = if failsOn f = true then some (errOf f) else none := by
  unfold checkField failsOn errOf
  by_cases ht : truthy f.value = true
  · cases hm : f.maxLength with
    | none => simp [ht, hm]
    | some n =>
      by_cases hl : valLen f.value > n
      · simp [ht, hm, hl]
      · simp [ht, hm, hl]
  · have ht' : truthy f.value = false := Bool.eq_false_iff.mpr ht
    simp [ht']

theorem mem_setField : ∀ (inst : PkgInstance) (n : String) (v : FieldValue)
    (q : String × FieldValue), q ∈ setField inst n v → q ∈ inst ∨ q = (n, v) := by
  intro inst n v
  induction inst with
  | nil =>
    intro q hq
    simp only [setField] at hq
    rcases List.mem_cons.mp hq with rfl | h
    · exact Or.inr rfl
    · simp at h
  | cons p rest ih =>
    intro q hq
    obtain ⟨m, w⟩ := p
    by_cases hm : (m == n) = true
    · simp only [setField] at hq
      rw [if_pos hm] at hq
      rcases List.mem_cons.mp hq with rfl | h
      · have hmn : m = n := by simpa using hm
        subst hmn
        exact Or.inr rfl
      · exact Or.inl (List.mem_cons_of_mem _ h)
    · simp only [setField] at hq
      rw [if_neg hm] at hq
      rcases List.mem_cons.mp hq with rfl | h
      · exact Or.inl (List.mem_cons_self _ _)
      · rcases ih q h with h' | h'
        · exact Or.inl (List.mem_cons_of_mem _ h')
        · exact Or.inr h'

/-- C7 counterexample: a package identity whose every bounded field fits its
declared maximum length, but whose `qualifiers` mapping is non-empty. The loop
evaluates `len(qualifiers-dict) > None` — the `qualifiers` `JSONField`
declares no `max_length` — and raises an unnamed `TypeError`: the call neither
succeeds nor fails with an error naming an offending field, refuting "if every
field fits, setting the package identity succeeds without error". -/
theorem set_package_url_qualifiers_type_error :
    (set_package_url []
        [⟨"type", .str (some "rpm"), some 16⟩,
         ⟨"namespace", .str (some "redhat"), some 255⟩,
         ⟨"name", .str (some "openssl"), some 100⟩,
         ⟨"version", .str (some "1.0.2k"), some 100⟩,
         ⟨"qualifiers", .mapping [("arch", "x86_64")], none⟩,
         ⟨"subpath", .str none, some 200⟩]).2 = some PkgError.typeError ∧
      valLen (.str (some "rpm")) ≤ 16 ∧ valLen (.str (some "redhat")) ≤ 255 ∧
      valLen (.str (some "openssl")) ≤ 100 ∧
      valLen (.str (some "1.0.2k")) ≤ 100 ∧ valLen (.str none) ≤ 200 := by
  decide

/-- C7 amended: `set_package_url` fails exactly when some field's truthy value
trips the guard — it succeeds iff every field is falsy or fits a declared
maximum; a `ValidationError` naming field n means n is a truthy field longer
than its declared numeric maximum, while a truthy field with no declared
maximum (the `qualifiers` `JSONField`) produces an unnamed `TypeError`
instead; and no value is ever silently truncated: every entry of the resulting
instance is either a pre-existing entry or the exact `value or None` of one of
the given fields. -/
theorem set_package_url_errors (inst : PkgInstance) (fields : List FieldSpec) :
    ((set_package_url inst fields).2 ≠ none ↔ ∃ f ∈ fields, failsOn f = true) ∧
    (∀ n, (set_package_url inst fields).2 = some (PkgError.fieldTooLong n) →
      ∃ f ∈ fields, f.name = n ∧ truthy f.value = true ∧
        ∃ m, f.maxLength = some m ∧ valLen f.value > m) ∧
    ((set_package_url inst fields).2 = some PkgError.typeError →
      ∃ f ∈ fields, truthy f.value = true ∧ f.maxLength = none) ∧
    (∀ q ∈ (set_package_url inst fields).1,
      q ∈ inst ∨ ∃ f ∈ fields, f.name = q.1 ∧ q.2 = valueOrNone f.value) := by
  induction fields generalizing inst with
  | nil =>
    refine ⟨by simp [set_package_url], by simp [set_package_url],
      by simp [set_package_url], ?_⟩
    intro q hq
    exact Or.inl hq
  | cons f rest ih =>
    by_cases hf : failsOn f = true
    · have hred : set_package_url inst (f :: rest) = (inst, some (errOf f)) := by
        simp only [set_package_url]
        rw [checkField_eq, if_pos hf]
      have hfail := hf
      unfold failsOn at hfail
      rw [Bool.and_eq_true] at hfail
      obtain ⟨ht, hmax⟩ := hfail
      refine ⟨?_, ?_, ?_, ?_⟩
      · rw [hred]
        exact ⟨fun _ => ⟨f, List.mem_cons_self _ _, hf⟩, fun _ => by simp⟩
      · intro n hn
        rw [hred] at hn
        cases hm : f.maxLength with
        | none =>
          have herr : errOf f = PkgError.typeError := by
            unfold errOf
            rw [hm]
          rw [herr] at hn
          simp at hn
        | some m =>
          have herr : errOf f = PkgError.fieldTooLong f.name := by
            unfold errOf
            rw [hm]
          rw [herr] at hn
          have hn' : f.name = n := by simpa using hn
          rw [hm] at hmax
          have hlen : valLen f.value > m := by simpa using hmax
          exact ⟨f, List.mem_cons_self _ _, hn', ht, m, hm, hlen⟩
      · intro hn
        rw [hred] at hn
        cases hm : f.maxLength with
        | none => exact ⟨f, List.mem_cons_self _ _, ht, hm⟩
        | some m =>
          have herr : errOf f = PkgError.fieldTooLong f.name := by
            unfold errOf
            rw [hm]
          rw [herr] at hn
          simp at hn
      · intro q hq
        rw [hred] at hq
        exact Or.inl hq
    · have hred : set_package_url inst (f :: rest)
          = set_package_url (setField inst f.name (valueOrNone f.value)) rest := by
        simp only [set_package_url]
        rw [checkField_eq, if_neg hf]
      obtain ⟨ih1, ih2, ih3, ih4⟩ := ih (setField inst f.name (valueOrNone f.value))
      refine ⟨?_, ?_, ?_, ?_⟩
      · rw [hred, ih1]
        constructor
        · rintro ⟨g, hg, hgl⟩
          exact ⟨g, List.mem_cons_of_mem _ hg, hgl⟩
        · rintro ⟨g, hg, hgl⟩
          rcases List.mem_cons.mp hg with rfl | hg'
          · exact absurd hgl hf
          · exact ⟨g, hg', hgl⟩
      · intro n hn
        rw [hred] at hn
        obtain ⟨g, hg, h1, h2, h3⟩ := ih2 n hn
        exact ⟨g, List.mem_cons_of_mem _ hg, h1, h2, h3⟩
      · intro hn
        rw [hred] at hn
        obtain ⟨g, hg, h1, h2⟩ := ih3 hn
        exact ⟨g, List.mem_cons_of_mem _ hg, h1, h2⟩
      · intro q hq
        rw [hred] at hq
        rcases ih4 q hq with h | ⟨g, hg, h1, h2⟩
        · rcases mem_setField inst f.name (valueOrNone f.value) q h with h' | h'
          · exact Or.inl h'
          · subst h'
            exact Or.inr ⟨f, List.mem_cons_self _ _, rfl, rfl⟩
        · exact Or.inr ⟨g, List.mem_cons_of_mem _ hg, h1, h2⟩

/-- Witness for `set_package_url_errors`: a name of 11 characters against a
maximum length of 10 trips the named branch, and a non-empty qualifiers
mapping trips the unnamed `TypeError` branch. -/
theorem set_package_url_errors_witness :
    (∃ f ∈ [FieldSpec.mk "type" (FieldValue.str (some "pypi")) (some 16),
            FieldSpec.mk "name" (FieldValue.str (some "abcdefghijk")) (some 10)],
      f.name = "name" ∧ truthy f.value = true ∧
        ∃ m, f.maxLength = some m ∧ valLen f.value > m) ∧
    (∃ f ∈ [FieldSpec.mk "type" (FieldValue.str (some "rpm")) (some 16),
            FieldSpec.mk "qualifiers" (FieldValue.mapping [("arch", "x86_64")]) none],
      truthy f.value = true ∧ f.maxLength = none) :=
  ⟨(set_package_url_errors []
        [⟨"type", .str (some "pypi"), some 16⟩,
         ⟨"name", .str (some "abcdefghijk"), some 10⟩]).2.1
      "name" (by decide),
   (set_package_url_errors []
        [⟨"type", .str (some "rpm"), some 16⟩,
         ⟨"qualifiers", .mapping [("arch", "x86_64")], none⟩]).2.2.1
      (by decide)⟩

/-- C8 counterexample: a failing `set_package_url` does NOT leave the state as
it was. With instance fields type = "t", name = "old", assigning type = "pypi"
(fits) and then an 11-character name against maximum length 10 raises on
`name`, but `type` has already been overwritten: the state after the failure
differs from the pre-operation state. -/
theorem set_package_url_not_all_or_nothing :
    set_package_url
        [("type", FieldValue.str (some "t")), ("name", FieldValue.str (some "old"))]
        [⟨"type", .str (some "pypi"), some 16⟩,
         ⟨"name", .str (some "abcdefghijk"), some 10⟩]
      = ([("type", FieldValue.str (some "pypi")),
          ("name", FieldValue.str (some "old"))],
         some (PkgError.fieldTooLong "name")) ∧
    ([("type", FieldValue.str (some "pypi")), ("name", FieldValue.str (some "old"))]
        : PkgInstance)
      ≠ [("type", FieldValue.str (some "t")), ("name", FieldValue.str (some "old"))] := by
  exact ⟨by decide, by decide⟩

/-- C8 amended: a failing `set_package_url` is not all-or-nothing; whatever the
failure — the named `ValidationError` of a too-long bounded field or the
`TypeError` of a truthy field with no declared maximum — it stops at the first
failing field, raising that field's exception and leaving exactly the fields
before it assigned with their untruncated values and nothing at or after it
touched; the persisted store is unaffected since no save happens, and
`update_or_create` itself has no failure path. -/
theorem set_package_url_failure_state (inst : PkgInstance)
    (fields : List FieldSpec) :
    ∀ err, (set_package_url inst fields).2 = some err →
      ∃ pre f post, fields = pre ++ f :: post ∧ failsOn f = true ∧
        err = errOf f ∧ (∀ g ∈ pre, failsOn g = false) ∧
        (set_package_url inst fields).1 = applyFields inst pre := by
  induction fields generalizing inst with
  | nil =>
    intro err herr
    simp [set_package_url] at herr
  | cons f rest ih =>
    intro err herr
    by_cases hf : failsOn f = true
    · have hred : set_package_url inst (f :: rest) = (inst, some (errOf f)) := by
        simp only [set_package_url]
        rw [checkField_eq, if_pos hf]
      rw [hred] at herr
      have herr' : errOf f = err := by simpa using herr
      refine ⟨[], f, rest, rfl, hf, herr'.symm, by simp, ?_⟩
      rw [hred]
      rfl
    · have hred : set_package_url inst (f :: rest)
          = set_package_url (setField inst f.name (valueOrNone f.value)) rest := by
        simp only [set_package_url]
        rw [checkField_eq, if_neg hf]
      rw [hred] at herr
      obtain ⟨pre, g, post, heq, hgf, hge, hpre, hstate⟩ :=
        ih (setField inst f.name (valueOrNone f.value)) err herr
      refine ⟨f :: pre, g, post, by rw [heq, List.cons_append], hgf, hge, ?_, ?_⟩
      · intro x hx
        rcases List.mem_cons.mp hx with rfl | hx'
        · exact Bool.eq_false_iff.mpr hf
        · exact hpre x hx'
      · rw [hred, hstate]
        rfl

/-- Witness for `set_package_url_failure_state`. -/
theorem set_package_url_failure_state_witness :
    ∃ pre f post,
      ([⟨"type", FieldValue.str (some "pypi"), some 16⟩,
        ⟨"name", FieldValue.str (some "abcdefghijk"), some 10⟩]
          : List FieldSpec) = pre ++ f :: post ∧
        failsOn f = true ∧ PkgError.fieldTooLong "name" = errOf f ∧
        (∀ g ∈ pre, failsOn g = false) ∧
        (set_package_url [("type", FieldValue.str (some "t"))]
            [⟨"type", FieldValue.str (some "pypi"), some 16⟩,
             ⟨"name", FieldValue.str (some "abcdefghijk"), some 10⟩]).1
          = applyFields [("type", FieldValue.str (some "t"))] pre :=
  set_package_url_failure_state [("type", FieldValue.str (some "t"))]
    [⟨"type", FieldValue.str (some "pypi"), some 16⟩,
     ⟨"name", FieldValue.str (some "abcdefghijk"), some 10⟩]
    (PkgError.fieldTooLong "name") (by decide)

/-! ### Release-version order -/

theorem verLe_refl : ∀ a : List Nat, verLe a a = true := by
  intro a
  induction a with
  | nil => rfl
  | cons x xs ih =>
    show (if x < x then true else if x < x then false else verLe xs xs) = true
    rw [if_neg (Nat.lt_irrefl x), if_neg (Nat.lt_irrefl x)]
    exact ih

theorem verLe_total : ∀ a b : List Nat, verLe a b = true ∨ verLe b a = true := by
  intro a
  induction a with
  | nil =>
    intro b
    exact Or.inl rfl
  | cons x xs ih =>
    intro b
    cases b with
    | nil => exact Or.inr rfl
    | cons y ys =>
      rcases Nat.lt_trichotomy x y with h | h | h
      · exact Or.inl (by simp [verLe, h])
      · subst h
        rcases ih ys with h' | h'
        · exact Or.inl (by simp [verLe, Nat.lt_irrefl, h'])
        · exact Or.inr (by simp [verLe, Nat.lt_irrefl, h'])
      · exact Or.inr (by simp [verLe, h])

theorem verLe_trans : ∀ a b c : List Nat,
    verLe a b = true → verLe b c = true → verLe a c = true := by
  intro a
  induction a with
  | nil =>
    intro b c _ _
    rfl
  | cons x xs ih =>
    intro b c hab hbc
    cases b with
    | nil => simp [verLe] at hab
    | cons y ys =>
      cases c with
      | nil => simp [verLe] at hbc
      | cons z zs =>
        by_cases hxy : x < y
        · by_cases hyz : y < z
          · have hxz : x < z := Nat.lt_trans hxy hyz
            simp [verLe, hxz]
          · by_cases hzy : z < y
            · simp [verLe, hyz, hzy] at hbc
            · have hzey : y = z :=
                Nat.le_antisymm (Nat.not_lt.mp hzy) (Nat.not_lt.mp hyz)
              have hxz : x < z := hzey ▸ hxy
              simp [verLe, hxz]
        · by_cases hyx : y < x
          · simp [verLe, hxy, hyx] at hab
          · have hxey : x = y :=
              Nat.le_antisymm (Nat.not_lt.mp hyx) (Nat.not_lt.mp hxy)
            subst hxey
            by_cases hxz : x < z
            · simp [verLe, hxz]
            · by_cases hzx : z < x
              · simp [verLe, hxz, hzx] at hbc
              · have hxez : x = z :=
                  Nat.le_antisymm (Nat.not_lt.mp hzx) (Nat.not_lt.mp hxz)
                subst hxez
                simp only [verLe, Nat.lt_irrefl, if_false] at hab hbc ⊢
                exact ih ys zs hab hbc

theorem minVer_eq_none {l : List (List Nat)} : minVer l = none ↔ l = [] := by
  cases l with
  | nil => simp [minVer]
  | cons v vs =>
    simp only [minVer]
    cases minVer vs <;> simp

theorem minVer_mem : ∀ {l : List (List Nat)} {m : List Nat},
    minVer l = some m → m ∈ l := by
  intro l
  induction l with
  | nil =>
    intro m h
    simp [minVer] at h
  | cons v vs ih =>
    intro m h
    simp only [minVer] at h
    cases hv : minVer vs with
    | none =>
      rw [hv] at h
      simp only [Option.some.injEq] at h
      subst h
      exact List.mem_cons_self _ _
    | some m' =>
      rw [hv] at h
      simp only [Option.some.injEq] at h
      subst h
      by_cases hle : verLe v m' = true
      · rw [if_pos hle]
        exact List.mem_cons_self _ _
      · rw [if_neg hle]
        exact List.mem_cons_of_mem _ (ih hv)

theorem minVer_le : ∀ {l : List (List Nat)} {m : List Nat},
    minVer l = some m → ∀ x ∈ l, verLe m x = true := by
  intro l
  induction l with
  | nil =>
    intro m h
    simp [minVer] at h
  | cons v vs ih =>
    intro m h x hx
    simp only [minVer] at h
    cases hv : minVer vs with
    | none =>
      rw [hv] at h
      simp only [Option.some.injEq] at h
      subst h
      have hnil : vs = [] := minVer_eq_none.mp hv
      subst hnil
      rcases List.mem_cons.mp hx with rfl | hx'
      · exact verLe_refl x
      · simp at hx'
    | some m' =>
      rw [hv] at h
      simp only [Option.some.injEq] at h
      subst h
      rcases List.mem_cons.mp hx with rfl | hx'
      · by_cases hle : verLe x m' = true
        · rw [if_pos hle]
          exact verLe_refl x
        · rw [if_neg hle]
          rcases verLe_total x m' with h' | h'
          · exact absurd h' hle
          · exact h'
      · have hm' := ih hv x hx'
        by_cases hle : verLe v m' = true
        · rw [if_pos hle]
          exact verLe_trans v m' x hle hm'
        · rw [if_neg hle]
          exact hm'

/-! ### The resolver contract (C4, C6) -/

/-- C4: for every catalog and bounds (s, e), the resolved vulnerable versions
are exactly the catalog versions v with s ≤ v ≤ e under release-version order;
the patched version, when present, is the least catalog version strictly
greater than e; the patched version is absent — not an error — exactly when no
catalog version exceeds e; and on the istio catalog with range 1.1 to 1.1.15
the result is vulnerable = {1.1.0, 1.1.1}, patched = 1.1.17. -/
theorem resolve_correct (s e : List Nat) (catalog : List (List Nat)) :
    (∀ v, v ∈ (resolve s e catalog).1 ↔
        v ∈ catalog ∧ verLe s v = true ∧ verLe v e = true) ∧
    (∀ p, (resolve s e catalog).2 = some p →
        p ∈ catalog ∧ verLt e p = true ∧
          ∀ w ∈ catalog, verLt e w = true → verLe p w = true) ∧
    ((resolve s e catalog).2 = none ↔ ∀ v ∈ catalog, verLt e v = false) ∧
    resolve [1, 1] [1, 1, 15]
        [[1, 0, 0], [1, 1, 0], [1, 1, 1], [1, 1, 17], [1, 2, 1],
         [1, 2, 7], [1, 3, 0], [1, 3, 1], [1, 3, 2]]
      = ([[1, 1, 0], [1, 1, 1]], some [1, 1, 17]) := by
  refine ⟨?_, ?_, ?_, by decide⟩
  · intro v
    show v ∈ catalog.filter (fun v => verLe s v && verLe v e) ↔ _
    rw [List.mem_filter, Bool.and_eq_true]
  · intro p hp
    have hp' : minVer (catalog.filter fun v => verLt e v) = some p := hp
    have hmem := minVer_mem hp'
    rw [List.mem_filter] at hmem
    refine ⟨hmem.1, hmem.2, ?_⟩
    intro w hw hlt
    exact minVer_le hp' w (List.mem_filter.mpr ⟨hw, hlt⟩)
  · show minVer (catalog.filter fun v => verLt e v) = none ↔ _
    rw [minVer_eq_none, List.filter_eq_nil_iff]
    constructor
    · intro h v hv
      exact Bool.eq_false_iff.mpr (h v hv)
    · intro h v hv
      rw [h v hv]
      simp

/-- Witness for `resolve_correct`: the patched version 1.1.17 of the istio
example satisfies the least-upper-version characterization. -/
theorem resolve_correct_witness :
    [1, 1, 17] ∈ ([[1, 0, 0], [1, 1, 0], [1, 1, 1], [1, 1, 17], [1, 2, 1],
        [1, 2, 7], [1, 3, 0], [1, 3, 1], [1, 3, 2]] : List (List Nat)) ∧
      verLt [1, 1, 15] [1, 1, 17] = true ∧
      ∀ w ∈ ([[1, 0, 0], [1, 1, 0], [1, 1, 1], [1, 1, 17], [1, 2, 1],
          [1, 2, 7], [1, 3, 0], [1, 3, 1], [1, 3, 2]] : List (List Nat)),
        verLt [1, 1, 15] w = true → verLe [1, 1, 17] w = true :=
  (resolve_correct [1, 1] [1, 1, 15]
      [[1, 0, 0], [1, 1, 0], [1, 1, 1], [1, 1, 17], [1, 2, 1],
       [1, 2, 7], [1, 3, 0], [1, 3, 1], [1, 3, 2]]).2.1
    [1, 1, 17] (by decide)

/-- The spec-modelled resolver reproduces, range by range and view by view,
the exact `AffectedPackage` list the istio test `test_process_file` expects:
golang and github views over the same catalog, ranges 1.1–1.1.15, 1.2–1.2.6
and 1.3–1.3.1. -/
theorem resolveAllRanges_matches_istio_test :
    resolveAllRanges [("golang", istioCatalog), ("github", istioCatalog)]
        [([1, 1], [1, 1, 15]), ([1, 2], [1, 2, 6]), ([1, 3], [1, 3, 1])]
      = [⟨"golang", [1, 1, 0], some [1, 1, 17]⟩,
         ⟨"golang", [1, 1, 1], some [1, 1, 17]⟩,
         ⟨"golang", [1, 2, 1], some [1, 2, 7]⟩,
         ⟨"golang", [1, 3, 0], some [1, 3, 2]⟩,
         ⟨"golang", [1, 3, 1], some [1, 3, 2]⟩,
         ⟨"github", [1, 1, 0], some [1, 1, 17]⟩,
         ⟨"github", [1, 1, 1], some [1, 1, 17]⟩,
         ⟨"github", [1, 2, 1], some [1, 2, 7]⟩,
         ⟨"github", [1, 3, 0], some [1, 3, 2]⟩,
         ⟨"github", [1, 3, 1], some [1, 3, 2]⟩] := by
  decide

/-- C6 counterexample: for the single advisory range 1.1 to 1.1.15 resolved
under the golang and github views of istio, each view emits two pairs — one
per vulnerable version 1.1.0 and 1.1.1 — so eight package-version objects in
total, not one pair per view and four objects. -/
theorem resolver_two_views_counterexample :
    (resolveView "golang" [1, 1] [1, 1, 15] istioCatalog).length = 2 ∧
      totalObjects (resolveViews [("golang", istioCatalog), ("github", istioCatalog)]
        [1, 1] [1, 1, 15]) = 8 := by
  decide

theorem totalObjects_append (a b : List AffectedPair) :
    totalObjects (a ++ b) = totalObjects a + totalObjects b := by
  simp [totalObjects, List.map_append, List.sum_append]

theorem totalObjects_flatten : ∀ L : List (List AffectedPair),
    totalObjects L.flatten = (L.map totalObjects).sum := by
  intro L
  induction L with
  | nil => rfl
  | cons l L ih =>
    show totalObjects (l ++ L.flatten) = _
    rw [totalObjects_append, ih]
    rfl

theorem totalObjects_map_const {α : Type} (l : List α) (f : α → AffectedPair)
    (h : ∀ x, pairObjects (f x) = 2) :
    totalObjects (l.map f) = 2 * l.length := by
  induction l with
  | nil => rfl
  | cons x xs ih =>
    show pairObjects (f x) + totalObjects (xs.map f) = 2 * (xs.length + 1)
    rw [h x, ih]
    omega

/-- C6 amended: each package-type view is resolved independently against its
own catalog and emits one (vulnerable, patched) pair per vulnerable catalog
version, all carrying that view's patched version; when a patched version
exists each pair holds two package-version objects, so a view with k
vulnerable versions contributes 2·k objects and totals add per view; two views
therefore yield four objects exactly for a single-vulnerable-version range,
e.g. 1.2 to 1.2.6 of the istio advisory — while 1.1 to 1.1.15 yields eight. -/
theorem resolver_per_view_counts (s e : List Nat) :
    (∀ t catalog, (resolveView t s e catalog).length
        = (resolve s e catalog).1.length) ∧
    (∀ t catalog, ∀ pr ∈ resolveView t s e catalog,
        pr.ptype = t ∧ pr.patched = (resolve s e catalog).2 ∧
          pr.vulnerable ∈ (resolve s e catalog).1) ∧
    (∀ t catalog, (resolve s e catalog).2.isSome = true →
        totalObjects (resolveView t s e catalog)
          = 2 * (resolve s e catalog).1.length) ∧
    (∀ views, totalObjects (resolveViews views s e)
        = (views.map fun vw => totalObjects (resolveView vw.1 s e vw.2)).sum) ∧
    totalObjects (resolveViews [("golang", istioCatalog), ("github", istioCatalog)]
        [1, 2] [1, 2, 6]) = 4 ∧
    (resolveView "golang" [1, 2] [1, 2, 6] istioCatalog).length = 1 := by
  refine ⟨?_, ?_, ?_, ?_, by decide, by decide⟩
  · intro t catalog
    simp [resolveView]
  · intro t catalog pr hpr
    obtain ⟨v, hv, rfl⟩ := List.mem_map.mp hpr
    exact ⟨rfl, rfl, hv⟩
  · intro t catalog hsome
    apply totalObjects_map_const
    intro v
    simp [pairObjects, hsome]
  · intro views
    show totalObjects (views.map fun vw => resolveView vw.1 s e vw.2).flatten = _
    rw [totalObjects_flatten, List.map_map]
    rfl

/-- Witness for `resolver_per_view_counts`: the golang view of the
single-vulnerable-version range 1.2 to 1.2.6 carries 2·1 objects. -/
theorem resolver_per_view_counts_witness :
    totalObjects (resolveView "golang" [1, 2] [1, 2, 6] istioCatalog)
      = 2 * (resolve [1, 2] [1, 2, 6] istioCatalog).1.length :=
  (resolver_per_view_counts [1, 2] [1, 2, 6]).2.2.1 "golang" istioCatalog
    (by decide)

end VulnCode
